import Mathlib

/-!
Verification development for the decklist parser of `app/core/parser.py`
(`parse_decklist`, `QTY_NAME_REGEX`, `SET_NUM_REGEX`).

The embedding works over `List Char`.  Python's Unicode character classes
(`str.isspace`, regex `\s`, `\w`, `\d`, `str.splitlines` boundaries) are
modelled on the Latin-1/ASCII fragment that the predicates below spell out;
all structural claims are stated relative to these predicates, used
consistently on both the code side and the specification side.
-/

namespace Bling

/-- Characters Python's `str.strip()` strips and regex `\s` matches
(Latin-1 fragment of `str.isspace`). -/
def isPySpace (c : Char) : Bool :=
  c = ' ' || c = '\t' || c = '\n' || c = '\r' || c = '\x0b' || c = '\x0c' ||
  c = '\x1c' || c = '\x1d' || c = '\x1e' || c = '\x1f' || c = '\x85' ||
  c = '\u00A0' || c = '\u2028' || c = '\u2029'

/-- Line boundaries of Python's `str.splitlines` (same fragment).  Note that
`\x1f` and `\u00A0` are whitespace but not line boundaries. -/
def isLineBreak (c : Char) : Bool :=
  c = '\n' || c = '\r' || c = '\x0b' || c = '\x0c' ||
  c = '\x1c' || c = '\x1d' || c = '\x1e' || c = '\x85' ||
  c = '\u2028' || c = '\u2029'

/-- Characters matched by regex `\w` (ASCII fragment: letters, digits,
underscore). -/
def isWordChar (c : Char) : Bool :=
  c.isAlphanum || c = '_'

/-- Right-strip: drop trailing characters satisfying `isPySpace`. -/
def rstripList (s : List Char) : List Char :=
  (s.reverse.dropWhile isPySpace).reverse

/-- Python `str.strip()`: drop leading and trailing whitespace. -/
def stripList (s : List Char) : List Char :=
  rstripList (s.dropWhile isPySpace)

/-- Fuel-driven worker for `replaceList`; structural recursion on the fuel so
that the kernel can evaluate it (`decide`).  The fuel is always at least the
length of the remaining input at call sites. -/
def replaceListFuel (pat repl : List Char) : Nat → List Char → List Char
  | _, [] => []
  | 0, s => s
  | fuel + 1, c :: rest =>
    if pat ≠ [] ∧ pat.isPrefixOf (c :: rest) then
      repl ++ replaceListFuel pat repl fuel ((c :: rest).drop pat.length)
    else
      c :: replaceListFuel pat repl fuel rest

/-- Python `str.replace(pat, repl)`: replace non-overlapping occurrences of
`pat` left to right, resuming the scan after each replacement. -/
def replaceList (pat repl s : List Char) : List Char :=
  replaceListFuel pat repl s.length s

/-- Python `pat in s`: substring containment. -/
def containsSub (pat : List Char) : List Char → Bool
  | [] => pat.isEmpty
  | c :: rest => pat.isPrefixOf (c :: rest) || containsSub pat rest

/-- Worker for `splitlinesList`: `acc` holds the current line reversed.
A `"\r\n"` pair is a single boundary; a trailing boundary does not open an
empty final line (Python `str.splitlines` semantics). -/
def splitlinesAux : List Char → List Char → List (List Char)
  | acc, [] => if acc.isEmpty then [] else [acc.reverse]
  | acc, '\r' :: '\n' :: rest => acc.reverse :: splitlinesAux [] rest
  | acc, c :: rest =>
    if isLineBreak c then acc.reverse :: splitlinesAux [] rest
    else splitlinesAux (c :: acc) rest

/-- Python `str.splitlines()` on the modelled boundary set. -/
def splitlinesList (s : List Char) : List (List Char) :=
  splitlinesAux [] s

/-- Python `int(...)` on a run of decimal digits. -/
def natOfDigits (ds : List Char) : Nat :=
  ds.foldl (fun n c => 10 * n + (c.toNat - 48)) 0

/-!
`SET_NUM_REGEX = r'\s\((\w{3,5})\)\s+(p?\w+)\b'`, hand-compiled.

Greedy matching with backtracking collapses as follows.
* `\w{3,5}` immediately followed by `\)`: since `)` is not a word character,
  the parenthesised group matches exactly when the maximal word-character run
  after `(` has length 3..5 and is followed by `)`.
* `\s+` greedy then a word character: whitespace and word characters are
  disjoint, so backtracking `\s+` never helps; the match requires a word
  character right after the maximal whitespace run.
* `p?\w+` followed by `\b`: `p` is itself a word character, so the group
  matches exactly the maximal nonempty word-character run, and the word
  boundary after a maximal run always holds.
-/

/-- Match `SET_NUM_REGEX` anchored at the head of `s`, returning
`(group 1, group 2)` on success. -/
def matchSetNumAt (s : List Char) : Option (List Char × List Char) :=
  match s with
  | c :: d :: rest2 =>
    if isPySpace c = true ∧ d = '(' then
      let run := rest2.takeWhile isWordChar
      if 3 ≤ run.length ∧ run.length ≤ 5 then
        match rest2.drop run.length with
        | e :: rest3 =>
          if e = ')' then
            let ws := rest3.takeWhile isPySpace
            if 1 ≤ ws.length then
              let num := (rest3.drop ws.length).takeWhile isWordChar
              if 1 ≤ num.length then some (run, num) else none
            else none
          else none
        | [] => none
      else none
    else none
  | _ => none

/-- Python `SET_NUM_REGEX.search`: leftmost match; returns the start index
and the two groups. -/
def searchSetNum : List Char → Option (Nat × List Char × List Char)
  | [] => none
  | c :: rest =>
    match matchSetNumAt (c :: rest) with
    | some (sc, num) => some (0, sc, num)
    | none =>
      match searchSetNum rest with
      | some (i, sc, num) => some (i + 1, sc, num)
      | none => none

/-!
`QTY_NAME_REGEX = r"(\d+)\s+(.+)"` with `re.match`, hand-compiled.

`\d+` takes the maximal leading digit run (backtracking shorter leaves a
digit, which `\s` cannot match).  `\s+` greedily takes the maximal whitespace
run of length `w` and backtracks down while `.+` cannot start: `.`, matching
any character except `'\n'`, must match the character right after the
`\s+` region.  `qtyBacktrack u j` scans `j, j-1, ..., 1` for the largest
split point whose following character exists and is not `'\n'`; group 2 is
then the maximal `'\n'`-free run from that point (`.+` greedy, unanchored).
-/

/-- Backtracking search for the `\s+` / `.+` split point; `u` is the input
after the digit run. -/
def qtyBacktrack (u : List Char) : Nat → Option (List Char)
  | 0 => none
  | j + 1 =>
    match u.drop (j + 1) with
    | c :: t =>
      if c ≠ '\n' then some ((c :: t).takeWhile (fun d => d ≠ '\n'))
      else qtyBacktrack u j
    | [] => qtyBacktrack u j

/-- Python `QTY_NAME_REGEX.match`, returning `(group 1, group 2)`. -/
def matchQtyName (s : List Char) : Option (List Char × List Char) :=
  let ds := s.takeWhile Char.isDigit
  if ds.isEmpty then none
  else
    let rest := s.drop ds.length
    let w := (rest.takeWhile isPySpace).length
    match qtyBacktrack rest w with
    | some g2 => some (ds, g2)
    | none => none

/-- One parsed entry: `(quantity, card_name, set_code, collector_number)`,
the `ParsedCard` tuple of the source. -/
structure ParsedCard where
  quantity : Nat
  card_name : List Char
  set_code : Option (List Char)
  collector_number : Option (List Char)
deriving DecidableEq, Repr

/-- Outcome of processing one raw line: silently skipped (blank/comment),
parsed into an entry, or rejected as unparsable (the normalized line is
logged). -/
inductive LineResult where
  | skipped : LineResult
  | parsed : ParsedCard → LineResult
  | unparsable : List Char → LineResult
deriving DecidableEq, Repr

/-- Per-line pre-processing of the source: `line.strip()`, then the smart
quotes `’` and `‘` become `'`, then `" / "` becomes `" // "`. -/
def normalizeLine (l : List Char) : List Char :=
  replaceList [' ', '/', ' '] [' ', '/', '/', ' ']
    (replaceList ['‘'] ['\'']
      (replaceList ['’'] ['\''] (stripList l)))

/-- Suffix extraction step of the source: on a `SET_NUM_REGEX.search` hit the
name portion is the text strictly before the match start, stripped, and the
two groups are returned (group 2 additionally stripped); otherwise the name
portion is the whole line. -/
def extractSuffix (line : List Char) :
    List Char × Option (List Char) × Option (List Char) :=
  match searchSetNum line with
  | some (i, sc, num) => (stripList (line.take i), some sc, some (stripList num))
  | none => (line, none, none)

/-- Process one raw line exactly as the loop body of `parse_decklist` does. -/
def processLine (nfc : List Char → List Char) (rawLine : List Char) : LineResult :=
  let line := normalizeLine rawLine
  if line.isEmpty || line.take 2 = ['/', '/'] then .skipped
  else
    match extractSuffix line with
    | (name_part, set_code, collector_number) =>
      match matchQtyName name_part with
      | some (ds, g2) =>
        .parsed ⟨natOfDigits ds, nfc (stripList g2), set_code, collector_number⟩
      | none => .unparsable line

/-- Diagnostic emitted by the source's `print` for a rejected line. -/
def logMsg (line : List Char) : List Char :=
  String.toList "Skipping unparsable line: " ++ line

/-- Document pre-processing of the source:
`decklist.replace('\r\n', '\n').strip().splitlines()`. -/
def docLines (doc : List Char) : List (List Char) :=
  splitlinesList (stripList (replaceList ['\r', '\n'] ['\n'] doc))

/-- The orchestrator `parse_decklist`.  The Unicode NFC normalization
(`unicodedata.normalize('NFC', ·)`, an external library function) is a
parameter `nfc`.  The first component is the returned `parsed_cards` list,
the second the sequence of log messages printed for unparsable lines, both
in encounter order as in the source's single loop. -/
def parse_decklist (nfc : List Char → List Char) (decklist : List Char) :
    List ParsedCard × List (List Char) :=
  (docLines decklist).foldl
    (fun acc l =>
      match processLine nfc l with
      | .skipped => acc
      | .parsed c => (acc.1 ++ [c], acc.2)
      | .unparsable m => (acc.1, acc.2 ++ [logMsg m]))
    ([], [])

/-- Entry produced by a line, if any. -/
def entryOf (nfc : List Char → List Char) (l : List Char) : Option ParsedCard :=
  match processLine nfc l with
  | .parsed c => some c
  | _ => none

/-- Log message produced by a line, if any. -/
def logOf (nfc : List Char → List Char) (l : List Char) : Option (List Char) :=
  match processLine nfc l with
  | .unparsable m => some (logMsg m)
  | _ => none

end Bling

namespace Bling

/-! ### Character class facts -/

lemma not_word_of_space {c : Char} (h : isPySpace c = true) : isWordChar c = false := by
  simp only [isPySpace, Bool.or_eq_true, decide_eq_true_eq] at h
  rcases h with ((((((((((((h | h) | h) | h) | h) | h) | h) | h) | h) | h) | h) | h) | h) | h <;>
    subst h <;> decide

lemma not_digit_of_space {c : Char} (h : isPySpace c = true) : c.isDigit = false := by
  simp only [isPySpace, Bool.or_eq_true, decide_eq_true_eq] at h
  rcases h with ((((((((((((h | h) | h) | h) | h) | h) | h) | h) | h) | h) | h) | h) | h) | h <;>
    subst h <;> decide

lemma not_space_of_word {c : Char} (h : isWordChar c = true) : isPySpace c = false := by
  cases hs : isPySpace c
  · rfl
  · rw [not_word_of_space hs] at h
    cases h

lemma not_space_of_digit {c : Char} (h : c.isDigit = true) : isPySpace c = false := by
  cases hs : isPySpace c
  · rfl
  · rw [not_digit_of_space hs] at h
    cases h

lemma newline_is_space : isPySpace '\n' = true := by decide

lemma ne_newline_of_not_space {c : Char} (h : isPySpace c = false) : c ≠ '\n' := by
  intro hc
  subst hc
  rw [newline_is_space] at h
  cases h

/-! ### takeWhile / dropWhile helpers -/

lemma dropWhile_head?_not {p : Char → Bool} {l : List Char} {c : Char}
    (h : (l.dropWhile p).head? = some c) : p c = false := by
  have := List.head?_dropWhile_not p l
  rw [h] at this
  exact this

lemma takeWhile_all_append {p : Char → Bool} {xs : List Char} (y : Char) (ys : List Char)
    (hxs : ∀ x ∈ xs, p x = true) (hy : p y = false) :
    (xs ++ y :: ys).takeWhile p = xs := by
  induction xs with
  | nil => simp [List.takeWhile_cons, hy]
  | cons a t ih =>
    have ha : p a = true := hxs a (by simp)
    simp only [List.cons_append, List.takeWhile_cons_of_pos ha]
    rw [ih (fun x hx => hxs x (by simp [hx]))]

lemma takeWhile_all_eq_self {p : Char → Bool} {xs : List Char}
    (hxs : ∀ x ∈ xs, p x = true) : xs.takeWhile p = xs :=
  List.takeWhile_eq_self_iff.mpr hxs

lemma dropWhile_append_distrib (p : Char → Bool) (as bs : List Char) :
    (as ++ bs).dropWhile p =
      if as.dropWhile p = [] then bs.dropWhile p else as.dropWhile p ++ bs := by
  induction as with
  | nil => simp
  | cons a t ih =>
    by_cases hpa : p a = true
    · simp only [List.cons_append, List.dropWhile_cons_of_pos hpa, ih]
    · simp only [List.cons_append, List.dropWhile_cons_of_neg hpa]
      simp [List.dropWhile_cons_of_neg hpa]

lemma dropWhile_eq_drop_length_takeWhile (p : Char → Bool) (l : List Char) :
    l.dropWhile p = l.drop (l.takeWhile p).length := by
  induction l with
  | nil => rfl
  | cons a t ih =>
    by_cases hpa : p a = true
    · simp [List.dropWhile_cons_of_pos hpa, List.takeWhile_cons_of_pos hpa, ih]
    · simp [List.dropWhile_cons_of_neg hpa, List.takeWhile_cons_of_neg hpa]

/-! ### strip lemmas -/

lemma rstrip_eq_nil_iff {s : List Char} :
    rstripList s = [] ↔ ∀ c ∈ s, isPySpace c = true := by
  unfold rstripList
  rw [List.reverse_eq_nil_iff, List.dropWhile_eq_nil_iff]
  constructor
  · intro h c hc
    exact h c (by simp [hc])
  · intro h c hc
    exact h c (by simp at hc; exact hc)

lemma strip_eq_nil_iff {s : List Char} :
    stripList s = [] ↔ ∀ c ∈ s, isPySpace c = true := by
  unfold stripList
  rw [rstrip_eq_nil_iff]
  constructor
  · intro h c hc
    have hsplit := List.takeWhile_append_dropWhile isPySpace s
    rw [← hsplit] at hc
    rcases List.mem_append.mp hc with h1 | h1
    · exact List.mem_takeWhile_imp h1
    · exact h c h1
  · intro h c hc
    exact h c ((List.dropWhile_sublist isPySpace).mem hc)

end Bling


namespace Bling

lemma strip_head?_not {s : List Char} {c : Char}
    (h : (stripList s).head? = some c) : isPySpace c = false := by
  unfold stripList rstripList at h
  rw [List.head?_reverse] at h
  have hne : (List.dropWhile isPySpace s).reverse.dropWhile isPySpace ≠ [] := by
    intro hnil
    rw [hnil] at h
    cases h
  obtain ⟨w, hw⟩ :=
    List.dropWhile_suffix (l := (List.dropWhile isPySpace s).reverse) isPySpace
  have heq : (w ++ (List.dropWhile isPySpace s).reverse.dropWhile isPySpace).getLast? =
      ((List.dropWhile isPySpace s).reverse.dropWhile isPySpace).getLast? :=
    List.getLast?_append_of_ne_nil w hne
  rw [hw, h, List.getLast?_reverse] at heq
  exact dropWhile_head?_not heq

lemma strip_getLast?_not {s : List Char} {c : Char}
    (h : (stripList s).getLast? = some c) : isPySpace c = false := by
  unfold stripList rstripList at h
  rw [List.getLast?_reverse] at h
  exact dropWhile_head?_not h

lemma stripped_of_ends {s : List Char}
    (h1 : ∀ c, s.head? = some c → isPySpace c = false)
    (h2 : ∀ c, s.getLast? = some c → isPySpace c = false) :
    stripList s = s := by
  unfold stripList rstripList
  have hdrop : s.dropWhile isPySpace = s := by
    cases s with
    | nil => rfl
    | cons a t =>
      exact List.dropWhile_cons_of_neg (by simp [h1 a rfl])
  rw [hdrop]
  cases hrev : s.reverse with
  | nil =>
    have : s = [] := List.reverse_eq_nil_iff.mp hrev
    simp [this]
  | cons a t =>
    have ha : isPySpace a = false := by
      apply h2
      rw [← List.head?_reverse, hrev]
      rfl
    rw [List.dropWhile_cons_of_neg (by simp [ha]), ← hrev, List.reverse_reverse]

lemma strip_idem (s : List Char) : stripList (stripList s) = stripList s :=
  stripped_of_ends (fun _ h => strip_head?_not h) (fun _ h => strip_getLast?_not h)

lemma strip_of_all_not_space {s : List Char}
    (h : ∀ c ∈ s, isPySpace c = false) : stripList s = s := by
  apply stripped_of_ends
  · intro c hc
    exact h c (List.mem_of_mem_head? (by simp [hc]))
  · intro c hc
    exact h c (List.mem_of_mem_getLast? (by simp [hc]))

lemma rstrip_append (xs ys : List Char) :
    rstripList (xs ++ ys) =
      if rstripList ys = [] then rstripList xs else xs ++ rstripList ys := by
  unfold rstripList
  rw [List.reverse_append, dropWhile_append_distrib]
  by_cases h : ys.reverse.dropWhile isPySpace = []
  · rw [if_pos h, if_pos (by rw [h]; rfl)]
  · rw [if_neg h, if_neg (fun hh => h (List.reverse_eq_nil_iff.mp hh)),
      List.reverse_append, List.reverse_reverse]

lemma rstrip_singleton (c : Char) :
    rstripList [c] = if isPySpace c then [] else [c] := by
  by_cases h : isPySpace c = true
  · simp [rstripList, h]
  · unfold rstripList
    simp only [List.reverse_cons, List.reverse_nil, List.nil_append]
    rw [List.dropWhile_cons_of_neg h, if_neg h]
    rfl

lemma rstrip_cons (c : Char) (t : List Char) :
    rstripList (c :: t) =
      if rstripList t = [] then (if isPySpace c then [] else [c])
      else c :: rstripList t := by
  have h := rstrip_append [c] t
  simp only [List.singleton_append] at h
  rw [h, rstrip_singleton]

lemma rstrip_dropWhile_comm (s : List Char) :
    (rstripList s).dropWhile isPySpace = rstripList (s.dropWhile isPySpace) := by
  induction s with
  | nil => rfl
  | cons c t ih =>
    rw [rstrip_cons]
    by_cases hpc : isPySpace c = true
    · rw [List.dropWhile_cons_of_pos hpc]
      by_cases ht : rstripList t = []
      · rw [if_pos ht, if_pos hpc]
        have hall : ∀ d ∈ t, isPySpace d = true := rstrip_eq_nil_iff.mp ht
        have h2 : ∀ d ∈ t.dropWhile isPySpace, isPySpace d = true := by
          intro d hd
          exact hall d ((List.dropWhile_sublist isPySpace).mem hd)
        rw [rstrip_eq_nil_iff.mpr h2]
        rfl
      · rw [if_neg ht, List.dropWhile_cons_of_pos hpc, ih]
    · rw [List.dropWhile_cons_of_neg hpc]
      by_cases ht : rstripList t = []
      · rw [if_pos ht, if_neg hpc, rstrip_cons, ht, if_pos rfl, if_neg hpc]
        exact (List.dropWhile_cons_of_neg hpc).symm ▸ rfl
      · rw [if_neg ht, rstrip_cons, if_neg ht]
        exact List.dropWhile_cons_of_neg hpc

lemma strip_eq_dropWhile_rstrip (s : List Char) :
    stripList s = (rstripList s).dropWhile isPySpace := by
  rw [rstrip_dropWhile_comm]
  rfl

end Bling

namespace Bling

/-! ### replaceList lemmas -/

lemma replaceListFuel_congr (pat repl : List Char) :
    ∀ f1 f2 s, s.length ≤ f1 → s.length ≤ f2 →
      replaceListFuel pat repl f1 s = replaceListFuel pat repl f2 s := by
  intro f1
  induction f1 with
  | zero =>
    intro f2 s h1 _
    have : s = [] := List.eq_nil_of_length_eq_zero (Nat.le_zero.mp h1)
    subst this
    cases f2 <;> rfl
  | succ f ih =>
    intro f2 s h1 h2
    cases s with
    | nil => cases f2 <;> rfl
    | cons c rest =>
      cases f2 with
      | zero => exact absurd h2 (by simp)
      | succ f2' =>
        show replaceListFuel pat repl (f + 1) (c :: rest) =
          replaceListFuel pat repl (f2' + 1) (c :: rest)
        unfold replaceListFuel
        by_cases hp : pat ≠ [] ∧ pat.isPrefixOf (c :: rest)
        · rw [if_pos hp, if_pos hp]
          congr 1
          apply ih
          · calc ((c :: rest).drop pat.length).length ≤ rest.length := by
                  rw [List.length_drop]
                  have : 1 ≤ pat.length := by
                    cases pat with
                    | nil => exact absurd rfl hp.1
                    | cons a b => simp
                  simp only [List.length_cons]
                  omega
              _ ≤ f := Nat.le_of_succ_le_succ h1
          · calc ((c :: rest).drop pat.length).length ≤ rest.length := by
                  rw [List.length_drop]
                  have : 1 ≤ pat.length := by
                    cases pat with
                    | nil => exact absurd rfl hp.1
                    | cons a b => simp
                  simp only [List.length_cons]
                  omega
              _ ≤ f2' := Nat.le_of_succ_le_succ h2
        · rw [if_neg hp, if_neg hp]
          congr 1
          exact ih f2' rest (Nat.le_of_succ_le_succ h1) (Nat.le_of_succ_le_succ h2)

lemma replaceList_nil (pat repl : List Char) : replaceList pat repl [] = [] := rfl

lemma replaceList_cons_pos {pat : List Char} (repl : List Char) {c : Char}
    {rest : List Char} (hne : pat ≠ []) (hpre : pat.isPrefixOf (c :: rest)) :
    replaceList pat repl (c :: rest) =
      repl ++ replaceList pat repl ((c :: rest).drop pat.length) := by
  have hstep : replaceList pat repl (c :: rest) =
      if pat ≠ [] ∧ pat.isPrefixOf (c :: rest) then
        repl ++ replaceListFuel pat repl rest.length ((c :: rest).drop pat.length)
      else c :: replaceListFuel pat repl rest.length rest := rfl
  rw [hstep, if_pos ⟨hne, hpre⟩]
  show repl ++ replaceListFuel pat repl rest.length ((c :: rest).drop pat.length) =
    repl ++ replaceListFuel pat repl ((c :: rest).drop pat.length).length
      ((c :: rest).drop pat.length)
  congr 1
  apply replaceListFuel_congr
  · rw [List.length_drop]
    have h1 : 1 ≤ pat.length := by
      cases pat with
      | nil => exact absurd rfl hne
      | cons a b => simp
    simp only [List.length_cons]
    omega
  · exact Nat.le_refl _

lemma replaceList_cons_neg {pat : List Char} (repl : List Char) {c : Char}
    {rest : List Char} (h : ¬(pat ≠ [] ∧ pat.isPrefixOf (c :: rest))) :
    replaceList pat repl (c :: rest) = c :: replaceList pat repl rest := by
  have hstep : replaceList pat repl (c :: rest) =
      if pat ≠ [] ∧ pat.isPrefixOf (c :: rest) then
        repl ++ replaceListFuel pat repl rest.length ((c :: rest).drop pat.length)
      else c :: replaceListFuel pat repl rest.length rest := rfl
  rw [hstep, if_neg h]
  rfl

lemma mem_replaceList {pat repl s : List Char} {c : Char}
    (h : c ∈ replaceList pat repl s) : c ∈ s ∨ c ∈ repl := by
  unfold replaceList at h
  generalize hf : s.length = f at h
  have hle : s.length ≤ f := Nat.le_of_eq hf
  clear hf
  induction f generalizing s with
  | zero =>
    have : s = [] := List.eq_nil_of_length_eq_zero (Nat.le_zero.mp hle)
    subst this
    cases h
  | succ f ih =>
    cases s with
    | nil => cases h
    | cons a rest =>
      unfold replaceListFuel at h
      by_cases hp : pat ≠ [] ∧ pat.isPrefixOf (a :: rest)
      · rw [if_pos hp] at h
        rcases List.mem_append.mp h with h1 | h1
        · exact Or.inr h1
        · rcases ih h1 (by
            rw [List.length_drop]
            have : 1 ≤ pat.length := by
              cases pat with
              | nil => exact absurd rfl hp.1
              | cons x y => simp
            simp only [List.length_cons] at hle ⊢
            omega) with h2 | h2
          · exact Or.inl ((List.drop_sublist _ _).mem h2)
          · exact Or.inr h2
      · rw [if_neg hp] at h
        rcases List.mem_cons.mp h with h1 | h1
        · exact Or.inl (by simp [h1])
        · rcases ih h1 (by simp only [List.length_cons] at hle; omega) with h2 | h2
          · exact Or.inl (List.mem_cons_of_mem a h2)
          · exact Or.inr h2

lemma replaceList_of_not_contains {pat repl s : List Char}
    (h : containsSub pat s = false) : replaceList pat repl s = s := by
  induction s with
  | nil => rfl
  | cons c rest ih =>
    unfold containsSub at h
    rw [Bool.or_eq_false_iff] at h
    rw [replaceList_cons_neg repl (by
      intro hcon
      rw [h.1] at hcon
      exact Bool.false_ne_true hcon.2)]
    rw [ih h.2]

lemma replaceList_single_eq_map (a b : Char) (s : List Char) :
    replaceList [a] [b] s = s.map (fun c => if c = a then b else c) := by
  induction s with
  | nil => rfl
  | cons c rest ih =>
    by_cases hca : c = a
    · subst hca
      rw [replaceList_cons_pos [b] (by simp) (by
        rw [List.isPrefixOf_iff_prefix]
        exact ⟨rest, rfl⟩)]
      simp only [List.length_cons, List.length_nil, List.drop_succ_cons, List.drop_zero]
      rw [ih]
      simp
    · rw [replaceList_cons_neg [b] (by
        intro hcon
        rw [List.isPrefixOf_iff_prefix, List.cons_prefix_cons] at hcon
        exact hca hcon.2.1.symm)]
      rw [ih]
      simp [hca]

end Bling

namespace Bling

lemma map_id_of_mem {f : Char → Char} {s : List Char}
    (h : ∀ c ∈ s, f c = c) : s.map f = s := by
  induction s with
  | nil => rfl
  | cons a t ih =>
    rw [List.map_cons, h a (by simp), ih (fun c hc => h c (by simp [hc]))]

lemma strip_map_comm (f : Char → Char) (hf : ∀ c, isPySpace (f c) = isPySpace c)
    (s : List Char) : stripList (s.map f) = (stripList s).map f := by
  have hcomp : (isPySpace ∘ f) = isPySpace := funext hf
  unfold stripList rstripList
  rw [List.dropWhile_map, hcomp, ← List.map_reverse, List.dropWhile_map, hcomp,
    ← List.map_reverse]

lemma replaceList_head?_of_not_space {pat repl s : List Char} {pc c : Char}
    (hpat : pat.head? = some pc) (hpc : isPySpace pc = true)
    (hs : s.head? = some c) (hc : isPySpace c = false) :
    (replaceList pat repl s).head? = some c := by
  cases s with
  | nil => cases hs
  | cons a rest =>
    have hac : a = c := by
      simp only [List.head?_cons, Option.some.injEq] at hs
      exact hs
    subst hac
    rw [replaceList_cons_neg repl (by
      rintro ⟨-, hpre⟩
      cases pat with
      | nil => cases hpat
      | cons p0 pt =>
        simp only [List.head?_cons, Option.some.injEq] at hpat
        subst hpat
        rw [List.isPrefixOf_iff_prefix, List.cons_prefix_cons] at hpre
        rw [hpre.1] at hpc
        rw [hpc] at hc
        cases hc)]
    rfl

lemma replaceList_getLast?_of_not_space_aux {pat repl : List Char} {pd : Char}
    (hpat : pat.getLast? = some pd) (hpd : isPySpace pd = true) :
    ∀ n s c, s.length ≤ n → s.getLast? = some c → isPySpace c = false →
      (replaceList pat repl s).getLast? = some c := by
  intro n
  induction n with
  | zero =>
    intro s c hlen hlast _
    have hs : s = [] := List.eq_nil_of_length_eq_zero (Nat.le_zero.mp hlen)
    subst hs
    cases hlast
  | succ n ih =>
    intro s c hlen hlast hc
    cases s with
    | nil => cases hlast
    | cons a rest =>
      by_cases hp : pat ≠ [] ∧ pat.isPrefixOf (a :: rest)
      · obtain ⟨w, hw⟩ := List.isPrefixOf_iff_prefix.mp hp.2
        rw [replaceList_cons_pos repl hp.1 hp.2]
        have hdrop : (a :: rest).drop pat.length = w := by
          rw [← hw, List.drop_left]
        have hwne : w ≠ [] := by
          rintro rfl
          rw [List.append_nil] at hw
          rw [hw, hlast] at hpat
          simp only [Option.some.injEq] at hpat
          rw [← hpat] at hpd
          rw [hpd] at hc
          cases hc
        have hlast' : w.getLast? = some c := by
          rw [← hw, List.getLast?_append_of_ne_nil pat hwne] at hlast
          exact hlast
        have hplen : 1 ≤ pat.length := by
          cases pat with
          | nil => exact absurd rfl hp.1
          | cons x y => simp
        have hlen' : w.length ≤ n := by
          have hlw := congrArg List.length hw
          simp only [List.length_append, List.length_cons] at hlw hlen
          omega
        have hres := ih w c hlen' hlast' hc
        have hresne : replaceList pat repl w ≠ [] := by
          intro h0
          rw [h0] at hres
          cases hres
        rw [hdrop, List.getLast?_append_of_ne_nil repl hresne]
        exact hres
      · rw [replaceList_cons_neg repl hp]
        cases rest with
        | nil =>
          simp only [List.getLast?_singleton, Option.some.injEq] at hlast
          subst hlast
          rw [replaceList_nil]
          rfl
        | cons b t =>
          have hlast' : (b :: t).getLast? = some c := by
            rw [← List.getLast?_cons_cons (a := a)]
            exact hlast
          have hres := ih (b :: t) c (by
            simp only [List.length_cons] at hlen ⊢
            omega) hlast' hc
          have hresne : replaceList pat repl (b :: t) ≠ [] := by
            intro h0
            rw [h0] at hres
            cases hres
          have hstep : (a :: replaceList pat repl (b :: t)).getLast? =
              (replaceList pat repl (b :: t)).getLast? := by
            cases hrep : replaceList pat repl (b :: t) with
            | nil => exact absurd hrep hresne
            | cons x y => rw [List.getLast?_cons_cons]
          rw [hstep]
          exact hres

lemma replaceList_getLast?_of_not_space {pat repl s : List Char} {pd c : Char}
    (hpat : pat.getLast? = some pd) (hpd : isPySpace pd = true)
    (hs : s.getLast? = some c) (hc : isPySpace c = false) :
    (replaceList pat repl s).getLast? = some c :=
  replaceList_getLast?_of_not_space_aux hpat hpd s.length s c (Nat.le_refl _) hs hc

end Bling

namespace Bling

/-! ### Stability facts about `normalizeLine` -/

lemma normalizeLine_eq_map_form (l : List Char) :
    normalizeLine l =
      replaceList [' ', '/', ' '] [' ', '/', '/', ' ']
        (((stripList l).map (fun c => if c = '’' then '\'' else c)).map
          (fun c => if c = '‘' then '\'' else c)) := by
  unfold normalizeLine
  rw [replaceList_single_eq_map, replaceList_single_eq_map]

lemma quote1_space_inv (c : Char) :
    isPySpace (if c = '’' then '\'' else c) = isPySpace c := by
  by_cases h : c = '’'
  · subst h
    decide
  · rw [if_neg h]

lemma quote2_space_inv (c : Char) :
    isPySpace (if c = '‘' then '\'' else c) = isPySpace c := by
  by_cases h : c = '‘'
  · subst h
    decide
  · rw [if_neg h]

lemma normalizeLine_stripped (l : List Char) :
    stripList (normalizeLine l) = normalizeLine l := by
  rw [normalizeLine_eq_map_form]
  have ht : stripList
      (((stripList l).map (fun c => if c = '’' then '\'' else c)).map
        (fun c => if c = '‘' then '\'' else c)) =
      ((stripList l).map (fun c => if c = '’' then '\'' else c)).map
        (fun c => if c = '‘' then '\'' else c) := by
    rw [strip_map_comm _ quote2_space_inv, strip_map_comm _ quote1_space_inv,
      strip_idem]
  generalize hT :
      (((stripList l).map (fun c => if c = '’' then '\'' else c)).map
        (fun c => if c = '‘' then '\'' else c)) = t at ht ⊢
  cases t with
  | nil =>
    rw [replaceList_nil]
    rfl
  | cons c0 t2 =>
    apply stripped_of_ends
    · intro c hc
      have hc0 : isPySpace c0 = false := by
        apply strip_head?_not (s := c0 :: t2)
        rw [ht]
        rfl
      have hh : (replaceList [' ', '/', ' '] [' ', '/', '/', ' '] (c0 :: t2)).head? =
          some c0 :=
        replaceList_head?_of_not_space rfl (by decide) rfl hc0
      rw [hh] at hc
      simp only [Option.some.injEq] at hc
      rw [← hc]
      exact hc0
    · intro c hc
      obtain ⟨c1, hc1⟩ : ∃ d, (c0 :: t2).getLast? = some d := by
        cases hg : (c0 :: t2).getLast? with
        | none => exact absurd (List.getLast?_eq_none_iff.mp hg) (by simp)
        | some d => exact ⟨d, rfl⟩
      have hc1s : isPySpace c1 = false := by
        apply strip_getLast?_not (s := c0 :: t2)
        rw [ht]
        exact hc1
      have hg : (replaceList [' ', '/', ' '] [' ', '/', '/', ' '] (c0 :: t2)).getLast? =
          some c1 :=
        replaceList_getLast?_of_not_space rfl (by decide) hc1 hc1s
      rw [hg] at hc
      simp only [Option.some.injEq] at hc
      rw [← hc]
      exact hc1s

lemma quote1_ne (d : Char) : (if d = '’' then '\'' else d) ≠ '’' := by
  by_cases h : d = '’'
  · subst h
    decide
  · rw [if_neg h]
    exact h

lemma quote2_preserves {a : Char} (ha : a ≠ '’') :
    (if a = '‘' then '\'' else a) ≠ '’' ∧ (if a = '‘' then '\'' else a) ≠ '‘' := by
  by_cases h : a = '‘'
  · subst h
    exact ⟨by decide, by decide⟩
  · rw [if_neg h]
    exact ⟨ha, h⟩

lemma normalizeLine_no_smart_quotes {l : List Char} {c : Char}
    (hc : c ∈ normalizeLine l) : c ≠ '’' ∧ c ≠ '‘' := by
  rw [normalizeLine_eq_map_form] at hc
  rcases mem_replaceList hc with h1 | h1
  · rw [List.mem_map] at h1
    obtain ⟨a, ha, hac⟩ := h1
    rw [List.mem_map] at ha
    obtain ⟨d, -, hda⟩ := ha
    rw [← hac]
    apply quote2_preserves
    rw [← hda]
    exact quote1_ne d
  · have h2 : c = ' ' ∨ c = '/' := by
      simp only [List.mem_cons, List.not_mem_nil, or_false] at h1
      tauto
    rcases h2 with h | h <;> subst h <;> exact ⟨by decide, by decide⟩

end Bling

namespace Bling

/-! ### Specification-side predicates (worded from the spec text, for the
refinement claims about the two extractors) -/

/-- Spec wording of the collector token: one or more word characters,
optionally prefixed by a lowercase `p`. -/
def SpecCollectorTok (num : List Char) : Prop :=
  ∃ t, (num = t ∨ num = 'p' :: t) ∧ t ≠ [] ∧ ∀ d ∈ t, isWordChar d = true

/-- Spec wording of the set/number annotation matched at the head of `t`:
a single whitespace character, an opening parenthesis, 3-5 word characters,
a closing parenthesis, one or more whitespace characters, a collector token,
then a word boundary. -/
def SpecSuffixHead (t sc num : List Char) : Prop :=
  ∃ c ws rest,
    t = c :: '(' :: (sc ++ ')' :: (ws ++ (num ++ rest))) ∧
    isPySpace c = true ∧
    (∀ d ∈ sc, isWordChar d = true) ∧ 3 ≤ sc.length ∧ sc.length ≤ 5 ∧
    ws ≠ [] ∧ (∀ d ∈ ws, isPySpace d = true) ∧
    SpecCollectorTok num ∧
    (∀ d, rest.head? = some d → isWordChar d = false)

/-- Spec suffix annotation found at position `i` of line `s`. -/
def SpecSuffixAt (s : List Char) (i : Nat) (sc num : List Char) : Prop :=
  SpecSuffixHead (s.drop i) sc num

/-- Spec wording of a parsable quantity-and-name shape: a leading run of
decimal digits, then one or more whitespace characters, then at least one
further character. -/
def QtyDecomp (s : List Char) : Prop :=
  ∃ ds ws more, s = ds ++ ws ++ more ∧ ds ≠ [] ∧ (∀ c ∈ ds, c.isDigit = true) ∧
    ws ≠ [] ∧ (∀ c ∈ ws, isPySpace c = true) ∧ more ≠ []

end Bling

namespace Bling

/-- C6 counterexample: the per-line normalization is not idempotent on the
line `"a / / b"`: one pass gives `"a // / b"` (the second shorthand
separator is re-created by the first replacement), a second pass gives
`"a // // b"`. -/
theorem c6_counterexample :
    normalizeLine (normalizeLine (String.toList "a / / b")) ≠
      normalizeLine (String.toList "a / / b") := by
  decide

/-- C6 (amended): the per-line normalization (trim, typographic-quote
replacement, `" / "` to `" // "`) is idempotent on every line whose
once-normalized form contains no further occurrence of `" / "`; when the
replacement re-creates the substring `" / "` (overlapping shorthands such as
`"a / / b"`), a second pass changes the line again. -/
theorem c6_normalize_idempotent_when_no_sep_left (l : List Char)
    (h : containsSub [' ', '/', ' '] (normalizeLine l) = false) :
    normalizeLine (normalizeLine l) = normalizeLine l := by
  have hstrip := normalizeLine_stripped l
  have hq1 : replaceList ['’'] ['\''] (normalizeLine l) = normalizeLine l := by
    rw [replaceList_single_eq_map]
    apply map_id_of_mem
    intro c hc
    rw [if_neg (normalizeLine_no_smart_quotes hc).1]
  have hq2 : replaceList ['‘'] ['\''] (normalizeLine l) = normalizeLine l := by
    rw [replaceList_single_eq_map]
    apply map_id_of_mem
    intro c hc
    rw [if_neg (normalizeLine_no_smart_quotes hc).2]
  show replaceList [' ', '/', ' '] [' ', '/', '/', ' ']
      (replaceList ['‘'] ['\'']
        (replaceList ['’'] ['\''] (stripList (normalizeLine l)))) = normalizeLine l
  rw [hstrip, hq1, hq2, replaceList_of_not_contains h]

/-- Witness for the amended C6 at a concrete input (a line that does contain
one `" / "` shorthand, which the first pass rewrites away). -/
theorem c6_amended_witness :
    containsSub [' ', '/', ' ']
      (normalizeLine (String.toList "2 Fire / Ice (APC) 128")) = false ∧
    normalizeLine (normalizeLine (String.toList "2 Fire / Ice (APC) 128")) =
      normalizeLine (String.toList "2 Fire / Ice (APC) 128") :=
  ⟨by decide,
   c6_normalize_idempotent_when_no_sep_left (String.toList "2 Fire / Ice (APC) 128")
     (by decide)⟩

/-- The fold of the source's per-line loop, characterised as order-preserving
filter-maps over the line sequence. -/
lemma parse_foldl_char (nfc : List Char → List Char) (lines : List (List Char)) :
    ∀ acc : List ParsedCard × List (List Char),
      lines.foldl (fun acc l =>
        match processLine nfc l with
        | .skipped => acc
        | .parsed c => (acc.1 ++ [c], acc.2)
        | .unparsable m => (acc.1, acc.2 ++ [logMsg m])) acc =
      (acc.1 ++ lines.filterMap (entryOf nfc), acc.2 ++ lines.filterMap (logOf nfc)) := by
  induction lines with
  | nil =>
    intro acc
    simp
  | cons l rest ih =>
    intro acc
    have he : entryOf nfc l = (match processLine nfc l with
      | .parsed c => some c
      | _ => none) := rfl
    have hl : logOf nfc l = (match processLine nfc l with
      | .unparsable m => some (logMsg m)
      | _ => none) := rfl
    rw [List.foldl_cons]
    cases hpl : processLine nfc l with
    | skipped =>
      rw [hpl] at he hl
      simp only [hpl, ih, List.filterMap_cons, he, hl]
    | parsed c =>
      rw [hpl] at he hl
      simp only [hpl, ih, List.filterMap_cons, he, hl, List.append_assoc,
        List.cons_append, List.nil_append]
    | unparsable m =>
      rw [hpl] at he hl
      simp only [hpl, ih, List.filterMap_cons, he, hl, List.append_assoc,
        List.cons_append, List.nil_append]

/-- C7: the result entries (and log messages) of `parse_decklist` are exactly
the per-line results in input line order: the loop-with-append equals an
order-preserving `filterMap` over the document's lines, so entries mirror
line order and duplicate card names on different lines stay separate; nothing
is sorted, merged or deduplicated. -/
theorem c7_encounter_order (nfc : List Char → List Char) (doc : List Char) :
    parse_decklist nfc doc =
      ((docLines doc).filterMap (entryOf nfc), (docLines doc).filterMap (logOf nfc)) := by
  unfold parse_decklist
  rw [parse_foldl_char]
  simp

end Bling

namespace Bling

/-- Shared characterisation of `parse_decklist` as filter-maps over the
document's lines. -/
lemma parse_decklist_eq_filterMap (nfc : List Char → List Char) (doc : List Char) :
    parse_decklist nfc doc =
      ((docLines doc).filterMap (entryOf nfc), (docLines doc).filterMap (logOf nfc)) := by
  unfold parse_decklist
  rw [parse_foldl_char]
  simp

lemma matchQtyName_some_inv {s ds g2 : List Char}
    (h : matchQtyName s = some (ds, g2)) :
    ds = s.takeWhile Char.isDigit ∧ ds ≠ [] ∧ ∀ c ∈ ds, c.isDigit = true := by
  unfold matchQtyName at h
  dsimp only [] at h
  by_cases hds : (s.takeWhile Char.isDigit).isEmpty
  · rw [if_pos hds] at h
    cases h
  · rw [if_neg hds] at h
    cases hq : qtyBacktrack (s.drop (s.takeWhile Char.isDigit).length)
        (((s.drop (s.takeWhile Char.isDigit).length).takeWhile isPySpace).length) with
    | none =>
      rw [hq] at h
      cases h
    | some g =>
      rw [hq] at h
      injection h with h'
      injection h' with h1 h2
      refine ⟨h1.symm, ?_, ?_⟩
      · rw [← h1]
        simpa [List.isEmpty_iff] using hds
      · intro c hc
        rw [← h1] at hc
        exact List.mem_takeWhile_imp hc

lemma processLine_parsed_inv {nfc : List Char → List Char} {l : List Char}
    {e : ParsedCard} (h : processLine nfc l = .parsed e) :
    ∃ ds g2,
      matchQtyName (extractSuffix (normalizeLine l)).1 = some (ds, g2) ∧
      e = ⟨natOfDigits ds, nfc (stripList g2),
           (extractSuffix (normalizeLine l)).2.1,
           (extractSuffix (normalizeLine l)).2.2⟩ := by
  unfold processLine at h
  dsimp only [] at h
  by_cases hskip : (normalizeLine l).isEmpty || (normalizeLine l).take 2 = ['/', '/']
  · rw [if_pos hskip] at h
    cases h
  · rw [if_neg hskip] at h
    rcases hex : extractSuffix (normalizeLine l) with ⟨np, rest2⟩
    rcases rest2 with ⟨sc, cn⟩
    simp only [hex] at h
    cases hq : matchQtyName np with
    | none =>
      rw [hq] at h
      cases h
    | some pair =>
      rcases pair with ⟨ds, g2⟩
      rw [hq] at h
      injection h with h'
      exact ⟨ds, g2, rfl, h'.symm⟩

lemma processLine_unparsable_inv {nfc : List Char → List Char} {l m : List Char}
    (h : processLine nfc l = .unparsable m) :
    m = normalizeLine l ∧
      matchQtyName (extractSuffix (normalizeLine l)).1 = none := by
  unfold processLine at h
  dsimp only [] at h
  by_cases hskip : (normalizeLine l).isEmpty || (normalizeLine l).take 2 = ['/', '/']
  · rw [if_pos hskip] at h
    cases h
  · rw [if_neg hskip] at h
    rcases hex : extractSuffix (normalizeLine l) with ⟨np, rest2⟩
    rcases rest2 with ⟨sc, cn⟩
    simp only [hex] at h
    cases hq : matchQtyName np with
    | none =>
      rw [hq] at h
      injection h with h'
      exact ⟨h'.symm, rfl⟩
    | some pair =>
      rcases pair with ⟨ds, g2⟩
      rw [hq] at h
      cases h

lemma extractSuffix_both_or_neither (line : List Char) :
    (extractSuffix line).2 = (none, none) ∨
      ∃ sc num, (extractSuffix line).2 = (some sc, some num) := by
  unfold extractSuffix
  cases hs : searchSetNum line with
  | none => exact Or.inl rfl
  | some triple =>
    rcases triple with ⟨i, sc, num⟩
    exact Or.inr ⟨sc, stripList num, rfl⟩

/-- C2: `parse_decklist` is total by construction (it is a plain function in
this embedding, mirroring that the source has no raising operation on any
path); moreover a document whose every line yields no entry (blank, comment
or unparsable lines only) returns the empty entry list, and the empty
document returns no entries and no log messages. -/
theorem c2_total_empty_result (nfc : List Char → List Char) (doc : List Char)
    (h : ∀ l ∈ docLines doc, entryOf nfc l = none) :
    (parse_decklist nfc doc).1 = [] ∧ parse_decklist nfc [] = ([], []) := by
  constructor
  · rw [parse_decklist_eq_filterMap]
    exact List.filterMap_eq_nil_iff.mpr h
  · rfl

/-- Witness for C2 at a concrete all-skipped/unparsable document. -/
theorem c2_witness :
    (∀ l ∈ docLines (String.toList "SIDEBOARD:\n// comment\n\n1x Foo"),
      entryOf id l = none) ∧
    (parse_decklist id (String.toList "SIDEBOARD:\n// comment\n\n1x Foo")).1 = [] :=
  ⟨by decide,
   (c2_total_empty_result id (String.toList "SIDEBOARD:\n// comment\n\n1x Foo")
     (by decide)).1⟩

/-- C3 counterexample: the line `"0 Sol Ring"` parses into an entry with
quantity `0`, so not every entry that reaches the result has quantity at
least 1. -/
theorem c3_counterexample :
    ¬ ∀ e ∈ (parse_decklist id (String.toList "0 Sol Ring")).1, 1 ≤ e.quantity := by
  decide

/-- C3 (amended): every entry's quantity is the numeric value of the
nonempty leading digit run of the name portion of the entry's own line —
hence a nonnegative integer that can be `0`, as for `"0 Sol Ring"` — and a
line whose name portion has no parseable leading quantity produces no entry
at all rather than an entry with a defaulted quantity of 1. -/
theorem c3_quantity_from_digit_run (nfc : List Char → List Char) (doc : List Char)
    (e : ParsedCard) (he : e ∈ (parse_decklist nfc doc).1) :
    (∃ l ∈ docLines doc, processLine nfc l = LineResult.parsed e ∧
      e.quantity = natOfDigits
        ((extractSuffix (normalizeLine l)).1.takeWhile Char.isDigit) ∧
      (extractSuffix (normalizeLine l)).1.takeWhile Char.isDigit ≠ []) ∧
    (∀ l ∈ docLines doc,
      matchQtyName (extractSuffix (normalizeLine l)).1 = none → entryOf nfc l = none) := by
  constructor
  · rw [parse_decklist_eq_filterMap] at he
    rw [List.mem_filterMap] at he
    obtain ⟨l, hlmem, hl⟩ := he
    unfold entryOf at hl
    cases hpl : processLine nfc l with
    | skipped => rw [hpl] at hl; cases hl
    | unparsable m => rw [hpl] at hl; cases hl
    | parsed c =>
      rw [hpl] at hl
      injection hl with hl'
      subst hl'
      obtain ⟨ds, g2, hq, hee⟩ := processLine_parsed_inv hpl
      obtain ⟨hds, hne, -⟩ := matchQtyName_some_inv hq
      refine ⟨l, hlmem, hpl, ?_, ?_⟩
      · rw [hee, ← hds]
      · rw [← hds]
        exact hne
  · intro l _ hnone
    unfold entryOf
    cases hpl : processLine nfc l with
    | skipped => rfl
    | unparsable m => rfl
    | parsed c =>
      obtain ⟨ds, g2, hq, -⟩ := processLine_parsed_inv hpl
      rw [hnone] at hq
      cases hq

/-- Witness for the amended C3 at the concrete quantity-zero input. -/
theorem c3_amended_witness :
    (⟨0, String.toList "Sol Ring", none, none⟩ : ParsedCard) ∈
      (parse_decklist id (String.toList "0 Sol Ring")).1 ∧
    ∃ l ∈ docLines (String.toList "0 Sol Ring"),
      processLine id l =
        LineResult.parsed ⟨0, String.toList "Sol Ring", none, none⟩ ∧
      (⟨0, String.toList "Sol Ring", none, none⟩ : ParsedCard).quantity =
        natOfDigits ((extractSuffix (normalizeLine l)).1.takeWhile Char.isDigit) ∧
      (extractSuffix (normalizeLine l)).1.takeWhile Char.isDigit ≠ [] :=
  ⟨by decide,
   (c3_quantity_from_digit_run id (String.toList "0 Sol Ring")
     ⟨0, String.toList "Sol Ring", none, none⟩ (by decide)).1⟩

/-- C4: in every entry returned by `parse_decklist`, `set_code` and
`collector_number` are either both populated or both `none`; never exactly
one of the two. -/
theorem c4_set_code_collector_paired (nfc : List Char → List Char) (doc : List Char)
    (e : ParsedCard) (he : e ∈ (parse_decklist nfc doc).1) :
    (e.set_code = none ∧ e.collector_number = none) ∨
    (∃ a b, e.set_code = some a ∧ e.collector_number = some b) := by
  rw [parse_decklist_eq_filterMap] at he
  rw [List.mem_filterMap] at he
  obtain ⟨l, -, hl⟩ := he
  unfold entryOf at hl
  cases hpl : processLine nfc l with
  | skipped => rw [hpl] at hl; cases hl
  | unparsable m => rw [hpl] at hl; cases hl
  | parsed c =>
    rw [hpl] at hl
    injection hl with hl'
    subst hl'
    obtain ⟨ds, g2, -, hee⟩ := processLine_parsed_inv hpl
    rcases extractSuffix_both_or_neither (normalizeLine l) with hb | ⟨a, b, hb⟩
    · left
      rw [hee]
      have h1 : (extractSuffix (normalizeLine l)).2.1 = none := by rw [hb]
      have h2 : (extractSuffix (normalizeLine l)).2.2 = none := by rw [hb]
      exact ⟨h1, h2⟩
    · right
      refine ⟨a, b, ?_, ?_⟩ <;> rw [hee]
      · show (extractSuffix (normalizeLine l)).2.1 = some a
        rw [hb]
      · show (extractSuffix (normalizeLine l)).2.2 = some b
        rw [hb]

/-- Witness for C4 at a concrete two-line document with and without suffix. -/
theorem c4_witness :
    (⟨1, String.toList "Sol Ring", some (String.toList "2ED"),
        some (String.toList "270")⟩ : ParsedCard) ∈
      (parse_decklist id (String.toList "1 Sol Ring (2ED) 270\n2 Swamp")).1 ∧
    (((⟨1, String.toList "Sol Ring", some (String.toList "2ED"),
        some (String.toList "270")⟩ : ParsedCard).set_code = none ∧
      (⟨1, String.toList "Sol Ring", some (String.toList "2ED"),
        some (String.toList "270")⟩ : ParsedCard).collector_number = none) ∨
    (∃ a b, (⟨1, String.toList "Sol Ring", some (String.toList "2ED"),
        some (String.toList "270")⟩ : ParsedCard).set_code = some a ∧
      (⟨1, String.toList "Sol Ring", some (String.toList "2ED"),
        some (String.toList "270")⟩ : ParsedCard).collector_number = some b)) :=
  ⟨by decide,
   c4_set_code_collector_paired id (String.toList "1 Sol Ring (2ED) 270\n2 Swamp")
     ⟨1, String.toList "Sol Ring", some (String.toList "2ED"),
       some (String.toList "270")⟩ (by decide)⟩

end Bling

namespace Bling

/-- C8: a line that is blank after trimming, or whose normalized form starts
with the two-character comment marker `//`, is skipped: it yields no entry
and no unparsable-line log message, and a document without that line (same
other lines) produces exactly the same entries and log messages. -/
theorem c8_blank_and_comment_lines_inert (nfc : List Char → List Char)
    (d1 d2 rawl : List Char) (pre post : List (List Char))
    (hskip : stripList rawl = [] ∨ (normalizeLine rawl).take 2 = ['/', '/'])
    (h1 : docLines d1 = pre ++ rawl :: post)
    (h2 : docLines d2 = pre ++ post) :
    processLine nfc rawl = LineResult.skipped ∧
      parse_decklist nfc d1 = parse_decklist nfc d2 := by
  have hsk : processLine nfc rawl = LineResult.skipped := by
    unfold processLine
    dsimp only []
    rcases hskip with h | h
    · have hnl : normalizeLine rawl = [] := by
        unfold normalizeLine
        rw [h, replaceList_nil, replaceList_nil, replaceList_nil]
      rw [if_pos (by rw [hnl]; simp)]
    · rw [if_pos (by rw [h]; simp)]
  refine ⟨hsk, ?_⟩
  have he : entryOf nfc rawl = none := by
    unfold entryOf
    rw [hsk]
  have hl : logOf nfc rawl = none := by
    unfold logOf
    rw [hsk]
  rw [parse_decklist_eq_filterMap, parse_decklist_eq_filterMap, h1, h2]
  simp only [List.filterMap_append, List.filterMap_cons, he, hl]

/-- Witness for C8: removing the comment line `"// note"` does not change
the parse of the surrounding lines. -/
theorem c8_witness :
    (stripList (String.toList "// note") = [] ∨
      (normalizeLine (String.toList "// note")).take 2 = ['/', '/']) ∧
    parse_decklist id (String.toList "1 Foo\n// note\n2 Bar") =
      parse_decklist id (String.toList "1 Foo\n2 Bar") :=
  ⟨Or.inr (by decide),
   (c8_blank_and_comment_lines_inert id (String.toList "1 Foo\n// note\n2 Bar")
     (String.toList "1 Foo\n2 Bar") (String.toList "// note")
     [String.toList "1 Foo"] [String.toList "2 Bar"]
     (Or.inr (by decide)) (by decide) (by decide)).2⟩

end Bling

namespace Bling

lemma specCollectorTok_iff {num : List Char} :
    SpecCollectorTok num ↔ (num ≠ [] ∧ ∀ d ∈ num, isWordChar d = true) := by
  constructor
  · rintro ⟨t, ht | ht, htne, htw⟩
    · subst ht
      exact ⟨htne, htw⟩
    · subst ht
      refine ⟨by simp, ?_⟩
      intro d hd
      rcases List.mem_cons.mp hd with h | h
      · subst h
        decide
      · exact htw d h
  · rintro ⟨hne, hw⟩
    exact ⟨num, Or.inl rfl, hne, hw⟩

lemma matchSetNumAt_some_iff {t sc num : List Char} :
    matchSetNumAt t = some (sc, num) ↔ SpecSuffixHead t sc num := by
  constructor
  · intro h
    unfold matchSetNumAt at h
    dsimp only [] at h
    cases t with
    | nil => cases h
    | cons c t1 =>
      cases t1 with
      | nil => cases h
      | cons d rest2 =>
        dsimp only [] at h
        by_cases hcd : isPySpace c = true ∧ d = '('
        · rw [if_pos hcd] at h
          by_cases h35 : 3 ≤ (rest2.takeWhile isWordChar).length ∧
              (rest2.takeWhile isWordChar).length ≤ 5
          · rw [if_pos h35] at h
            cases hdr : rest2.drop (rest2.takeWhile isWordChar).length with
            | nil =>
              rw [hdr] at h
              cases h
            | cons e rest3 =>
              rw [hdr] at h
              dsimp only [] at h
              by_cases he : e = ')'
              · rw [if_pos he] at h
                by_cases hws : 1 ≤ (rest3.takeWhile isPySpace).length
                · rw [if_pos hws] at h
                  by_cases hnum : 1 ≤
                      ((rest3.drop (rest3.takeWhile isPySpace).length).takeWhile
                        isWordChar).length
                  · rw [if_pos hnum] at h
                    injection h with h'
                    injection h' with hsc hnm
                    obtain ⟨hc1, hd1⟩ := hcd
                    subst hd1
                    subst he
                    refine ⟨c, rest3.takeWhile isPySpace,
                      (rest3.drop (rest3.takeWhile isPySpace).length).dropWhile
                        isWordChar, ?_, hc1, ?_, ?_, ?_, ?_, ?_, ?_, ?_⟩
                    · have hr2 : rest2 = sc ++ (')' :: rest3) := by
                        conv_lhs => rw [← List.takeWhile_append_dropWhile
                          (p := isWordChar) (l := rest2)]
                        rw [dropWhile_eq_drop_length_takeWhile, hdr, hsc]
                      have hr3 : rest3 = rest3.takeWhile isPySpace ++
                          (rest3.drop (rest3.takeWhile isPySpace).length) := by
                        conv_lhs => rw [← List.takeWhile_append_dropWhile
                          (p := isPySpace) (l := rest3)]
                        rw [dropWhile_eq_drop_length_takeWhile]
                      have hr4 : rest3.drop (rest3.takeWhile isPySpace).length =
                          num ++ (rest3.drop (rest3.takeWhile isPySpace).length).dropWhile
                            isWordChar := by
                        conv_lhs => rw [← List.takeWhile_append_dropWhile
                          (p := isWordChar)
                          (l := rest3.drop (rest3.takeWhile isPySpace).length)]
                        rw [hnm]
                      have hr5 : rest3 = rest3.takeWhile isPySpace ++
                          (num ++ (rest3.drop (rest3.takeWhile isPySpace).length).dropWhile
                            isWordChar) := by
                        conv_lhs => rw [hr3]
                        conv_lhs => rw [hr4]
                      conv_lhs => rw [hr2]
                      conv_lhs => rw [hr5]
                    · intro x hx
                      rw [← hsc] at hx
                      exact List.mem_takeWhile_imp hx
                    · rw [← hsc]
                      exact h35.1
                    · rw [← hsc]
                      exact h35.2
                    · intro hnil
                      rw [hnil] at hws
                      cases hws
                    · intro x hx
                      exact List.mem_takeWhile_imp hx
                    · rw [specCollectorTok_iff]
                      refine ⟨?_, ?_⟩
                      · intro hnil
                        rw [hnil] at hnm
                        rw [hnm] at hnum
                        simp at hnum
                      · intro x hx
                        rw [← hnm] at hx
                        exact List.mem_takeWhile_imp hx
                    · intro x hx
                      exact dropWhile_head?_not hx
                  · rw [if_neg hnum] at h
                    cases h
                · rw [if_neg hws] at h
                  cases h
              · rw [if_neg he] at h
                cases h
          · rw [if_neg h35] at h
            cases h
        · rw [if_neg hcd] at h
          cases h
  · rintro ⟨c, ws, rest, hdecomp, hc, hscw, hsc3, hsc5, hwsne, hwss, htok, hbd⟩
    obtain ⟨hnumne, hnumw⟩ := specCollectorTok_iff.mp htok
    subst hdecomp
    unfold matchSetNumAt
    dsimp only []
    rw [if_pos ⟨hc, rfl⟩]
    have hrun : (sc ++ ')' :: (ws ++ (num ++ rest))).takeWhile isWordChar = sc :=
      takeWhile_all_append ')' _ hscw (by decide)
    rw [hrun, if_pos ⟨hsc3, hsc5⟩, List.drop_left]
    dsimp only []
    rw [if_pos rfl]
    obtain ⟨n0, ntail, hn0⟩ : ∃ n0 ntail, num = n0 :: ntail := by
      cases num with
      | nil => exact absurd rfl hnumne
      | cons a b => exact ⟨a, b, rfl⟩
    have hn0w : isWordChar n0 = true := hnumw n0 (by rw [hn0]; simp)
    have hws2 : (ws ++ (num ++ rest)).takeWhile isPySpace = ws := by
      rw [hn0, List.cons_append]
      exact takeWhile_all_append n0 _ hwss (not_space_of_word hn0w)
    rw [hws2]
    rw [if_pos (by
      cases ws with
      | nil => exact absurd rfl hwsne
      | cons a b => simp)]
    rw [List.drop_left]
    have hnum2 : (num ++ rest).takeWhile isWordChar = num := by
      cases rest with
      | nil =>
        rw [List.append_nil]
        exact takeWhile_all_eq_self hnumw
      | cons r0 rtail =>
        exact takeWhile_all_append r0 _ hnumw (hbd r0 rfl)
    rw [hnum2]
    rw [if_pos (by rw [hn0]; simp)]

end Bling

namespace Bling

lemma matchSetNumAt_nil : matchSetNumAt [] = none := rfl

lemma searchSetNum_eq_some_of {sc num : List Char} :
    ∀ (i : Nat) (s : List Char),
      (∀ j, j < i → matchSetNumAt (s.drop j) = none) →
      matchSetNumAt (s.drop i) = some (sc, num) →
      searchSetNum s = some (i, sc, num) := by
  intro i
  induction i with
  | zero =>
    intro s _ hsome
    rw [List.drop_zero] at hsome
    cases s with
    | nil =>
      rw [matchSetNumAt_nil] at hsome
      cases hsome
    | cons c rest =>
      unfold searchSetNum
      rw [hsome]
  | succ i ih =>
    intro s hj hsome
    cases s with
    | nil =>
      rw [List.drop_nil, matchSetNumAt_nil] at hsome
      cases hsome
    | cons c rest =>
      have h0 : matchSetNumAt (c :: rest) = none := by
        have := hj 0 (Nat.succ_pos i)
        rwa [List.drop_zero] at this
      unfold searchSetNum
      rw [h0]
      have hrec : searchSetNum rest = some (i, sc, num) := by
        apply ih
        · intro j hji
          have := hj (j + 1) (Nat.succ_lt_succ hji)
          rwa [List.drop_succ_cons] at this
        · rwa [List.drop_succ_cons] at hsome
      rw [hrec]

lemma searchSetNum_eq_none_of :
    ∀ s : List Char, (∀ j, matchSetNumAt (s.drop j) = none) →
      searchSetNum s = none := by
  intro s
  induction s with
  | nil => intro _; rfl
  | cons c rest ih =>
    intro h
    have h0 : matchSetNumAt (c :: rest) = none := by
      have := h 0
      rwa [List.drop_zero] at this
    unfold searchSetNum
    rw [h0]
    have hrec : searchSetNum rest = none := by
      apply ih
      intro j
      have := h (j + 1)
      rwa [List.drop_succ_cons] at this
    rw [hrec]

/-- C5: the suffix extractor implements exactly the spec's first-match
policy.  If the spec's set/number annotation occurs at position `i` of the
normalized line and at no earlier position, the extractor returns the
annotation's set token as matched, the collector token trimmed, and the name
portion is the text strictly before the match start, trimmed; if the
annotation occurs nowhere, both stay unset and the name portion is the whole
line. -/
theorem c5_suffix_extractor_first_match (line : List Char) :
    (∀ i sc num, SpecSuffixAt line i sc num →
      (∀ j sc' num', j < i → ¬ SpecSuffixAt line j sc' num') →
      extractSuffix line = (stripList (line.take i), some sc, some (stripList num))) ∧
    ((∀ i sc num, ¬ SpecSuffixAt line i sc num) →
      extractSuffix line = (line, none, none)) := by
  constructor
  · intro i sc num hspec hearly
    have hsome : matchSetNumAt (line.drop i) = some (sc, num) :=
      matchSetNumAt_some_iff.mpr hspec
    have hnone : ∀ j, j < i → matchSetNumAt (line.drop j) = none := by
      intro j hj
      cases hm : matchSetNumAt (line.drop j) with
      | none => rfl
      | some pair =>
        rcases pair with ⟨sc', num'⟩
        exact absurd (matchSetNumAt_some_iff.mp hm) (hearly j sc' num' hj)
    have hsearch := searchSetNum_eq_some_of i line hnone hsome
    unfold extractSuffix
    rw [hsearch]
  · intro hno
    have hsearch : searchSetNum line = none := by
      apply searchSetNum_eq_none_of
      intro j
      cases hm : matchSetNumAt (line.drop j) with
      | none => rfl
      | some pair =>
        rcases pair with ⟨sc', num'⟩
        exact absurd (matchSetNumAt_some_iff.mp hm) (hno j sc' num')
    unfold extractSuffix
    rw [hsearch]

end Bling

namespace Bling

lemma mem_of_mem_strip {s : List Char} {c : Char} (h : c ∈ stripList s) : c ∈ s := by
  unfold stripList rstripList at h
  rw [List.mem_reverse] at h
  have h2 := (List.dropWhile_sublist (l := (s.dropWhile isPySpace).reverse) isPySpace).mem h
  rw [List.mem_reverse] at h2
  exact (List.dropWhile_sublist isPySpace).mem h2

lemma matchSetNumAt_head_not_space {c : Char} {t : List Char}
    (h : isPySpace c = false) : matchSetNumAt (c :: t) = none := by
  cases t with
  | nil => rfl
  | cons d rest =>
    unfold matchSetNumAt
    dsimp only []
    rw [if_neg (by
      rintro ⟨h1, -⟩
      rw [h] at h1
      cases h1)]

lemma searchSetNum_none_imp {s : List Char} (h : searchSetNum s = none) :
    ∀ j, matchSetNumAt (s.drop j) = none := by
  induction s with
  | nil =>
    intro j
    rw [List.drop_nil]
    rfl
  | cons c rest ih =>
    intro j
    unfold searchSetNum at h
    cases hm : matchSetNumAt (c :: rest) with
    | some pair =>
      rcases pair with ⟨sc, num⟩
      rw [hm] at h
      cases h
    | none =>
      rw [hm] at h
      cases hs : searchSetNum rest with
      | some triple =>
        rcases triple with ⟨i, sc, num⟩
        rw [hs] at h
        cases h
      | none =>
        cases j with
        | zero =>
          rw [List.drop_zero]
          exact hm
        | succ j2 =>
          rw [List.drop_succ_cons]
          exact ih hs j2

/-- Witness for C5: the first-match case at `"x (ABC) 12"` (match at index 1)
and the no-match case at `"no suffix here"`. -/
theorem c5_witness :
    extractSuffix (String.toList "x (ABC) 12") =
      (stripList ((String.toList "x (ABC) 12").take 1),
        some (String.toList "ABC"), some (stripList (String.toList "12"))) ∧
    extractSuffix (String.toList "no suffix here") =
      (String.toList "no suffix here", none, none) := by
  constructor
  · apply (c5_suffix_extractor_first_match (String.toList "x (ABC) 12")).1
    · exact ⟨' ', [' '], [], by decide, by decide, by decide, by decide, by decide,
        by decide, by decide, ⟨String.toList "12", Or.inl rfl, by decide, by decide⟩,
        by intro d hd; cases hd⟩
    · intro j sc' num' hj hspec
      have hj0 : j = 0 := by omega
      subst hj0
      have h2 := matchSetNumAt_some_iff.mpr hspec
      rw [List.drop_zero] at h2
      have h3 : matchSetNumAt (String.toList "x (ABC) 12") = none := by decide
      rw [h3] at h2
      cases h2
  · apply (c5_suffix_extractor_first_match (String.toList "no suffix here")).2
    intro i sc num hspec
    have h2 := matchSetNumAt_some_iff.mpr hspec
    have h3 : searchSetNum (String.toList "no suffix here") = none := by decide
    rw [searchSetNum_none_imp h3 i] at h2
    cases h2

end Bling

namespace Bling

lemma qtyBacktrack_succ_pos {u : List Char} {j : Nat} {c : Char} {t : List Char}
    (hd : u.drop (j + 1) = c :: t) (hc : c ≠ '\n') :
    qtyBacktrack u (j + 1) = some ((c :: t).takeWhile (fun d => d ≠ '\n')) := by
  unfold qtyBacktrack
  rw [hd]
  dsimp only []
  rw [if_pos hc]

lemma processLine_valid_line {nfc : List Char → List Char}
    {line Nd name SET NUM trailing : List Char}
    (hline : line = Nd ++ ' ' :: (name ++ ' ' :: '(' ::
      (SET ++ ')' :: ' ' :: (NUM ++ trailing))))
    (hNd : Nd ≠ []) (hNdd : ∀ c ∈ Nd, c.isDigit = true)
    (hname : stripList name ≠ [])
    (hSETw : ∀ c ∈ SET, isWordChar c = true)
    (hSET3 : 3 ≤ SET.length) (hSET5 : SET.length ≤ 5)
    (hNUM : NUM ≠ []) (hNUMw : ∀ c ∈ NUM, isWordChar c = true)
    (htrail : ∀ d, trailing.head? = some d → isWordChar d = false)
    (hearly : ∀ j, j < (Nd ++ ' ' :: name).length →
      matchSetNumAt (line.drop j) = none)
    (hnb : ∀ c ∈ name, c ≠ '\n')
    (hnorm : normalizeLine line = line) :
    processLine nfc line = .parsed
      ⟨natOfDigits Nd, nfc (stripList name), some SET, some NUM⟩ := by
  obtain ⟨d0, Nd2, hNd0⟩ : ∃ d0 Nd2, Nd = d0 :: Nd2 := by
    cases Nd with
    | nil => exact absurd rfl hNd
    | cons a b => exact ⟨a, b, rfl⟩
  have hd0 : d0.isDigit = true := hNdd d0 (by rw [hNd0]; simp)
  have hline0 : line = d0 :: (Nd2 ++ ' ' :: (name ++ ' ' :: '(' ::
      (SET ++ ')' :: ' ' :: (NUM ++ trailing)))) := by
    rw [hline, hNd0]
    rfl
  have hskip : ¬((line.isEmpty || decide (line.take 2 = ['/', '/'])) = true) := by
    intro hor
    rcases Bool.or_eq_true_iff.mp hor with h | h
    · rw [hline0] at h
      cases h
    · have h2 := of_decide_eq_true h
      rw [hline0] at h2
      have hred : List.take 2 (d0 :: (Nd2 ++ ' ' :: (name ++ ' ' :: '(' ::
          (SET ++ ')' :: ' ' :: (NUM ++ trailing))))) =
          d0 :: List.take 1 (Nd2 ++ ' ' :: (name ++ ' ' :: '(' ::
          (SET ++ ')' :: ' ' :: (NUM ++ trailing)))) := rfl
      rw [hred] at h2
      injection h2 with h3 _
      rw [h3] at hd0
      cases hd0
  have hlineP : line = (Nd ++ ' ' :: name) ++ (' ' :: '(' ::
      (SET ++ ')' :: ([' '] ++ (NUM ++ trailing)))) := by
    rw [hline]
    simp
  have hsome : matchSetNumAt (line.drop (Nd ++ ' ' :: name).length) =
      some (SET, NUM) := by
    rw [hlineP, List.drop_left]
    apply matchSetNumAt_some_iff.mpr
    refine ⟨' ', [' '], trailing, rfl, by decide, hSETw, hSET3, hSET5, by simp,
      ?_, ⟨NUM, Or.inl rfl, hNUM, hNUMw⟩, htrail⟩
    intro d hd
    rcases List.mem_singleton.mp hd with h
    rw [h]
    decide
  have hsearch := searchSetNum_eq_some_of (Nd ++ ' ' :: name).length line
    hearly hsome
  have htake : line.take (Nd ++ ' ' :: name).length = Nd ++ ' ' :: name := by
    rw [hlineP, List.take_left]
  have hext : extractSuffix line =
      (stripList (Nd ++ ' ' :: name), some SET, some (stripList NUM)) := by
    unfold extractSuffix
    rw [hsearch]
    dsimp only []
    rw [htake]
  have hstripNUM : stripList NUM = NUM :=
    strip_of_all_not_space (fun c hc => not_space_of_word (hNUMw c hc))
  have hrstrip_ne : rstripList name ≠ [] := by
    intro h0
    apply hname
    rw [strip_eq_nil_iff]
    exact rstrip_eq_nil_iff.mp h0
  have hpre : stripList (Nd ++ ' ' :: name) = Nd ++ ' ' :: rstripList name := by
    unfold stripList
    have hdw : (Nd ++ ' ' :: name).dropWhile isPySpace = Nd ++ ' ' :: name := by
      rw [hNd0, List.cons_append]
      exact List.dropWhile_cons_of_neg (by simp [not_space_of_digit hd0])
    rw [hdw]
    have h1 : rstripList (' ' :: name) = ' ' :: rstripList name := by
      rw [rstrip_cons, if_neg hrstrip_ne]
    have h2 := rstrip_append Nd (' ' :: name)
    rw [h1] at h2
    rw [h2, if_neg (by simp)]
  obtain ⟨m0, mt, hm0⟩ : ∃ m0 mt, stripList name = m0 :: mt := by
    cases hs : stripList name with
    | nil => exact absurd hs hname
    | cons a b => exact ⟨a, b, rfl⟩
  have hm0s : isPySpace m0 = false := strip_head?_not (by rw [hm0]; rfl)
  have hqty : matchQtyName (Nd ++ ' ' :: rstripList name) =
      some (Nd, stripList name) := by
    unfold matchQtyName
    dsimp only []
    have hds : (Nd ++ ' ' :: rstripList name).takeWhile Char.isDigit = Nd :=
      takeWhile_all_append ' ' _ hNdd (by decide)
    rw [hds, if_neg (by simpa [List.isEmpty_iff] using hNd), List.drop_left,
      List.takeWhile_cons_of_pos (by decide : isPySpace ' ' = true),
      List.length_cons]
    have hdrop : (' ' :: rstripList name).drop
        (((rstripList name).takeWhile isPySpace).length + 1) = m0 :: mt := by
      rw [List.drop_succ_cons, ← dropWhile_eq_drop_length_takeWhile,
        ← strip_eq_dropWhile_rstrip, hm0]
    rw [qtyBacktrack_succ_pos hdrop (by
      intro hm
      rw [hm] at hm0s
      rw [newline_is_space] at hm0s
      cases hm0s)]
    have hself : (m0 :: mt).takeWhile (fun d => d ≠ '\n') = stripList name := by
      rw [← hm0]
      apply List.takeWhile_eq_self_iff.mpr
      intro x hx
      have hxn : x ∈ name := mem_of_mem_strip hx
      simp [hnb x hxn]
    rw [hself]
  unfold processLine
  dsimp only []
  rw [hnorm, if_neg hskip, hext]
  dsimp only []
  rw [hpre, hqty]
  dsimp only []
  rw [strip_idem, hstripNUM]

end Bling

namespace Bling

/-- C1: a normalized single-line document of the form
`"<N> <name> (<SET>) <NUM><trailing>"` — `N` a nonempty digit run, `name`
with nonempty trim, `SET` 3-5 word characters, `NUM` a nonempty
word-character token, trailing text starting with a non-word character, and
no earlier part of the line matching the suffix pattern — parses to exactly
one entry: quantity the integer value of `N`, card name the NFC-normalized
trimmed `name`, set code `SET`, collector number `NUM`; the trailing text is
discarded and nothing is logged. -/
theorem c1_valid_line_exact_entry (nfc : List Char → List Char)
    (doc line Nd name SET NUM trailing : List Char)
    (hline : line = Nd ++ ' ' :: (name ++ ' ' :: '(' ::
      (SET ++ ')' :: ' ' :: (NUM ++ trailing))))
    (hNd : Nd ≠ []) (hNdd : ∀ c ∈ Nd, c.isDigit = true)
    (hname : stripList name ≠ [])
    (hSETw : ∀ c ∈ SET, isWordChar c = true)
    (hSET3 : 3 ≤ SET.length) (hSET5 : SET.length ≤ 5)
    (hNUM : NUM ≠ []) (hNUMw : ∀ c ∈ NUM, isWordChar c = true)
    (htrail : ∀ d, trailing.head? = some d → isWordChar d = false)
    (hearly : ∀ j, j < (Nd ++ ' ' :: name).length →
      matchSetNumAt (line.drop j) = none)
    (hnb : ∀ c ∈ name, c ≠ '\n')
    (hnorm : normalizeLine line = line)
    (hdoc : docLines doc = [line]) :
    parse_decklist nfc doc =
      ([⟨natOfDigits Nd, nfc (stripList name), some SET, some NUM⟩], []) := by
  have hp : processLine nfc line = LineResult.parsed
      ⟨natOfDigits Nd, nfc (stripList name), some SET, some NUM⟩ :=
    processLine_valid_line hline hNd hNdd hname hSETw hSET3
      hSET5 hNUM hNUMw htrail hearly hnb hnorm
  have he : entryOf nfc line =
      some ⟨natOfDigits Nd, nfc (stripList name), some SET, some NUM⟩ := by
    unfold entryOf
    rw [hp]
  have hl : logOf nfc line = none := by
    unfold logOf
    rw [hp]
  rw [parse_decklist_eq_filterMap, hdoc]
  simp only [List.filterMap_cons, he, hl, List.filterMap_nil]

/-- Witness for C1 at `"1 Sol Ring (2ED) 270 *F*"` (with the foil marker as
trailing text). -/
theorem c1_witness :
    parse_decklist id (String.toList "1 Sol Ring (2ED) 270 *F*") =
      ([⟨natOfDigits (String.toList "1"), id (stripList (String.toList "Sol Ring")),
        some (String.toList "2ED"), some (String.toList "270")⟩], []) :=
  c1_valid_line_exact_entry id (String.toList "1 Sol Ring (2ED) 270 *F*")
    (String.toList "1 Sol Ring (2ED) 270 *F*") (String.toList "1")
    (String.toList "Sol Ring") (String.toList "2ED") (String.toList "270")
    (String.toList " *F*")
    (by decide) (by decide) (by decide) (by decide) (by decide) (by decide)
    (by decide) (by decide) (by decide)
    (by decide) (by decide) (by decide) (by decide) (by decide)

end Bling

namespace Bling

/-- C10: a line consisting of a quantity followed only by a set/collector
suffix and no card name (for example `"4 (ABC) 123"`) produces no entry: the
suffix match consumes everything after the digit run, the remaining
digit-only name portion fails the quantity-then-name pattern, and the line
is rejected as unparsable (logged, no entry). -/
theorem c10_quantity_with_suffix_only_rejected (nfc : List Char → List Char)
    (doc line Nd SET ws NUM : List Char) (c : Char)
    (hline : line = Nd ++ c :: '(' :: (SET ++ ')' :: (ws ++ NUM)))
    (hNd : Nd ≠ []) (hNdd : ∀ d ∈ Nd, d.isDigit = true)
    (hc : isPySpace c = true)
    (hSETw : ∀ d ∈ SET, isWordChar d = true)
    (hSET3 : 3 ≤ SET.length) (hSET5 : SET.length ≤ 5)
    (hws : ws ≠ []) (hwss : ∀ d ∈ ws, isPySpace d = true)
    (hNUM : NUM ≠ []) (hNUMw : ∀ d ∈ NUM, isWordChar d = true)
    (hnorm : normalizeLine line = line)
    (hdoc : docLines doc = [line]) :
    processLine nfc line = LineResult.unparsable line ∧
      parse_decklist nfc doc = ([], [logMsg line]) := by
  obtain ⟨d0, Nd2, hNd0⟩ : ∃ d0 Nd2, Nd = d0 :: Nd2 := by
    cases Nd with
    | nil => exact absurd rfl hNd
    | cons a b => exact ⟨a, b, rfl⟩
  have hd0 : d0.isDigit = true := hNdd d0 (by rw [hNd0]; simp)
  have hline0 : line = d0 :: (Nd2 ++ c :: '(' :: (SET ++ ')' :: (ws ++ NUM))) := by
    rw [hline, hNd0]
    rfl
  have hskip : ¬((line.isEmpty || decide (line.take 2 = ['/', '/'])) = true) := by
    intro hor
    rcases Bool.or_eq_true_iff.mp hor with h | h
    · rw [hline0] at h
      cases h
    · have h2 := of_decide_eq_true h
      rw [hline0] at h2
      have hred : List.take 2 (d0 :: (Nd2 ++ c :: '(' ::
          (SET ++ ')' :: (ws ++ NUM)))) =
          d0 :: List.take 1 (Nd2 ++ c :: '(' :: (SET ++ ')' :: (ws ++ NUM))) := rfl
      rw [hred] at h2
      injection h2 with h3 _
      rw [h3] at hd0
      cases hd0
  have hearly : ∀ j, j < Nd.length → matchSetNumAt (line.drop j) = none := by
    intro j hj
    have hdropj : line.drop j =
        Nd.drop j ++ (c :: '(' :: (SET ++ ')' :: (ws ++ NUM))) := by
      rw [hline, List.drop_append_eq_append_drop,
        Nat.sub_eq_zero_of_le (Nat.le_of_lt hj), List.drop_zero]
    obtain ⟨e, t, het⟩ : ∃ e t, Nd.drop j = e :: t := by
      cases hdd : Nd.drop j with
      | nil =>
        have hlen := congrArg List.length hdd
        rw [List.length_drop] at hlen
        simp only [List.length_nil] at hlen
        omega
      | cons a b => exact ⟨a, b, rfl⟩
    have hee : e ∈ Nd := (List.drop_sublist j Nd).mem (by rw [het]; simp)
    rw [hdropj, het, List.cons_append]
    exact matchSetNumAt_head_not_space (not_space_of_digit (hNdd e hee))
  have hsome : matchSetNumAt (line.drop Nd.length) = some (SET, NUM) := by
    rw [hline, List.drop_left]
    apply matchSetNumAt_some_iff.mpr
    refine ⟨c, ws, [], ?_, hc, hSETw, hSET3, hSET5, hws, hwss,
      ⟨NUM, Or.inl rfl, hNUM, hNUMw⟩, ?_⟩
    · rw [List.append_nil]
    · intro d hd
      cases hd
  have hsearch := searchSetNum_eq_some_of Nd.length line hearly hsome
  have htake : line.take Nd.length = Nd := by
    rw [hline, List.take_left]
  have hstripNd : stripList Nd = Nd :=
    strip_of_all_not_space (fun d hd => not_space_of_digit (hNdd d hd))
  have hext : extractSuffix line = (Nd, some SET, some (stripList NUM)) := by
    unfold extractSuffix
    rw [hsearch]
    dsimp only []
    rw [htake, hstripNd]
  have hqn : matchQtyName Nd = none := by
    unfold matchQtyName
    dsimp only []
    have hds : Nd.takeWhile Char.isDigit = Nd :=
      List.takeWhile_eq_self_iff.mpr hNdd
    rw [hds, if_neg (by simpa [List.isEmpty_iff] using hNd), List.drop_length]
    rfl
  have hp : processLine nfc line = LineResult.unparsable line := by
    unfold processLine
    dsimp only []
    rw [hnorm, if_neg hskip, hext]
    dsimp only []
    rw [hqn]
  refine ⟨hp, ?_⟩
  have he : entryOf nfc line = none := by
    unfold entryOf
    rw [hp]
  have hl : logOf nfc line = some (logMsg line) := by
    unfold logOf
    rw [hp]
  rw [parse_decklist_eq_filterMap, hdoc]
  simp only [List.filterMap_cons, he, hl, List.filterMap_nil]

/-- Witness for C10 at `"4 (ABC) 123"`. -/
theorem c10_witness :
    processLine id (String.toList "4 (ABC) 123") =
      LineResult.unparsable (String.toList "4 (ABC) 123") ∧
    parse_decklist id (String.toList "4 (ABC) 123") =
      ([], [logMsg (String.toList "4 (ABC) 123")]) :=
  c10_quantity_with_suffix_only_rejected id (String.toList "4 (ABC) 123")
    (String.toList "4 (ABC) 123") (String.toList "4") (String.toList "ABC")
    [' '] (String.toList "123") ' '
    (by decide) (by decide) (by decide) (by decide) (by decide) (by decide)
    (by decide) (by decide) (by decide) (by decide) (by decide) (by decide)
    (by decide)

end Bling

namespace Bling

lemma takeWhile_append_of_all {p : Char → Bool} {xs : List Char} (ys : List Char)
    (h : ∀ x ∈ xs, p x = true) :
    (xs ++ ys).takeWhile p = xs ++ ys.takeWhile p := by
  induction xs with
  | nil => simp
  | cons a t ih =>
    rw [List.cons_append, List.takeWhile_cons_of_pos (h a (by simp)),
      ih (fun x hx => h x (by simp [hx])), List.cons_append]

lemma qtyBacktrack_isSome_of {u : List Char} {j : Nat} {c : Char} {t : List Char}
    (hj1 : 1 ≤ j) (hd : u.drop j = c :: t) (hc : c ≠ '\n') :
    ∀ w, j ≤ w → (qtyBacktrack u w).isSome = true := by
  intro w
  induction w with
  | zero =>
    intro hw
    omega
  | succ w2 ih =>
    intro hw
    unfold qtyBacktrack
    cases hdd : u.drop (w2 + 1) with
    | cons e et =>
      dsimp only []
      by_cases he : e = '\n'
      · rw [if_neg (by simpa using he)]
        have hjw : j ≤ w2 := by
          rcases Nat.lt_or_ge j (w2 + 1) with h | h
          · omega
          · have hje : j = w2 + 1 := by omega
            rw [hje, hdd] at hd
            injection hd with h1 _
            rw [h1] at he
            exact absurd he hc
        exact ih hjw
      · rw [if_pos he]
        rfl
    | nil =>
      dsimp only []
      have hjw : j ≤ w2 := by
        rcases Nat.lt_or_ge j (w2 + 1) with h | h
        · omega
        · have hje : j = w2 + 1 := by omega
          rw [hje, hdd] at hd
          cases hd
      exact ih hjw

lemma matchQtyName_isSome_of_decomp {s : List Char}
    (hnn : ∀ x ∈ s, x ≠ '\n') (hd : QtyDecomp s) :
    (matchQtyName s).isSome = true := by
  obtain ⟨ds, ws, more, hs, hdsne, hdsd, hwsne, hwss, hmne⟩ := hd
  obtain ⟨w0, wt, hw0⟩ : ∃ w0 wt, ws = w0 :: wt := by
    cases ws with
    | nil => exact absurd rfl hwsne
    | cons a b => exact ⟨a, b, rfl⟩
  obtain ⟨m0, mt, hm0⟩ : ∃ m0 mt, more = m0 :: mt := by
    cases more with
    | nil => exact absurd rfl hmne
    | cons a b => exact ⟨a, b, rfl⟩
  have hs2 : s = ds ++ (w0 :: (wt ++ more)) := by
    rw [hs, hw0]
    simp
  have hds : s.takeWhile Char.isDigit = ds := by
    rw [hs2]
    exact takeWhile_all_append w0 _ hdsd
      (not_digit_of_space (hwss w0 (by rw [hw0]; simp)))
  have hrest : s.drop ds.length = ws ++ more := by
    rw [hs, List.append_assoc, List.drop_left]
  have hwlen : ws.length ≤ ((s.drop ds.length).takeWhile isPySpace).length := by
    rw [hrest, takeWhile_append_of_all more hwss, List.length_append]
    omega
  have hdropws : (s.drop ds.length).drop ws.length = m0 :: mt := by
    rw [hrest, List.drop_left, hm0]
  have hm0nn : m0 ≠ '\n' := by
    apply hnn
    rw [hs, hm0]
    simp
  have hbt := qtyBacktrack_isSome_of (u := s.drop ds.length)
    (by rw [hw0]; simp : 1 ≤ ws.length) hdropws hm0nn
    (((s.drop ds.length).takeWhile isPySpace).length) hwlen
  unfold matchQtyName
  dsimp only []
  rw [hds, if_neg (by simpa [List.isEmpty_iff] using hdsne)]
  cases hq : qtyBacktrack (s.drop ds.length)
      (((s.drop ds.length).takeWhile isPySpace).length) with
  | none =>
    rw [hq] at hbt
    cases hbt
  | some g => rfl

lemma not_qtyDecomp_of_none {s : List Char}
    (hnn : ∀ x ∈ s, x ≠ '\n') (h : matchQtyName s = none) : ¬ QtyDecomp s := by
  intro hd
  have := matchQtyName_isSome_of_decomp hnn hd
  rw [h] at this
  cases this

lemma qtyBacktrack_some_imp {u g : List Char} :
    ∀ w, qtyBacktrack u w = some g → ∃ j, 1 ≤ j ∧ j ≤ w ∧ ∃ c t, u.drop j = c :: t := by
  intro w
  induction w with
  | zero =>
    intro h
    cases h
  | succ w2 ih =>
    intro h
    unfold qtyBacktrack at h
    cases hdd : u.drop (w2 + 1) with
    | cons e et =>
      rw [hdd] at h
      dsimp only [] at h
      by_cases he : e = '\n'
      · rw [if_neg (by simpa using he)] at h
        obtain ⟨j, hj1, hjw, hex⟩ := ih h
        exact ⟨j, hj1, by omega, hex⟩
      · exact ⟨w2 + 1, by omega, Nat.le_refl _, e, et, hdd⟩
    | nil =>
      rw [hdd] at h
      dsimp only [] at h
      obtain ⟨j, hj1, hjw, hex⟩ := ih h
      exact ⟨j, hj1, by omega, hex⟩

lemma qtyDecomp_of_some {s ds g2 : List Char}
    (h : matchQtyName s = some (ds, g2)) : QtyDecomp s := by
  obtain ⟨hds, hdsne, hdsd⟩ := matchQtyName_some_inv h
  subst hds
  unfold matchQtyName at h
  dsimp only [] at h
  rw [if_neg (by simpa [List.isEmpty_iff] using hdsne)] at h
  cases hq : qtyBacktrack (s.drop (s.takeWhile Char.isDigit).length)
      (((s.drop (s.takeWhile Char.isDigit).length).takeWhile isPySpace).length) with
  | none =>
    rw [hq] at h
    cases h
  | some g =>
    obtain ⟨j, hj1, hjw, c, t, hdrop⟩ := qtyBacktrack_some_imp _ hq
    have hsplit : s = s.takeWhile Char.isDigit ++ s.drop (s.takeWhile Char.isDigit).length := by
      conv_lhs => rw [← List.takeWhile_append_dropWhile (p := Char.isDigit) (l := s)]
      rw [dropWhile_eq_drop_length_takeWhile]
    have husplit : s.drop (s.takeWhile Char.isDigit).length =
        (s.drop (s.takeWhile Char.isDigit).length).take j ++
        (s.drop (s.takeWhile Char.isDigit).length).drop j :=
      (List.take_append_drop j _).symm
    refine ⟨s.takeWhile Char.isDigit,
      (s.drop (s.takeWhile Char.isDigit).length).take j,
      (s.drop (s.takeWhile Char.isDigit).length).drop j, ?_, ?_, ?_, ?_, ?_, ?_⟩
    · conv_lhs => rw [hsplit]
      conv_lhs => rw [husplit]
      exact (List.append_assoc _ _ _).symm
    · exact hdsne
    · exact hdsd
    · have hlen : ((s.drop (s.takeWhile Char.isDigit).length).take j).length = j := by
        rw [List.length_take]
        have hdl := congrArg List.length hdrop
        rw [List.length_drop, List.length_cons] at hdl
        have : j < (s.drop (s.takeWhile Char.isDigit).length).length := by omega
        omega
      intro h0
      rw [h0] at hlen
      simp only [List.length_nil] at hlen
      omega
    · intro x hx
      have hpre := List.takeWhile_prefix
        (l := s.drop (s.takeWhile Char.isDigit).length) (p := isPySpace)
      obtain ⟨rest, hr⟩ := hpre
      have htj : (s.drop (s.takeWhile Char.isDigit).length).take j =
          ((s.drop (s.takeWhile Char.isDigit).length).takeWhile isPySpace).take j := by
        conv_lhs => rw [← hr]
        rw [List.take_append_of_le_length hjw]
      rw [htj] at hx
      exact List.mem_takeWhile_imp ((List.take_sublist _ _).mem hx)
    · intro h0
      rw [h0] at hdrop
      cases hdrop

end Bling

namespace Bling

/-- C9: a non-blank, non-comment line whose name portion (after suffix
removal) does not begin with a run of decimal digits followed by one or more
whitespace characters and at least one further character (e.g. `"1x Sol
Ring"` or `"SIDEBOARD:"`) produces no entry; the line is reported to the
logging side channel as unparsable, and all other lines are processed
normally. -/
theorem c9_unparsable_line_logged (nfc : List Char → List Char)
    (doc rawl : List Char) (pre post : List (List Char))
    (hne : normalizeLine rawl ≠ [])
    (hnc : (normalizeLine rawl).take 2 ≠ ['/', '/'])
    (hnd : ¬ QtyDecomp (extractSuffix (normalizeLine rawl)).1)
    (hdoc : docLines doc = pre ++ rawl :: post) :
    processLine nfc rawl = LineResult.unparsable (normalizeLine rawl) ∧
    (parse_decklist nfc doc).1 =
      pre.filterMap (entryOf nfc) ++ post.filterMap (entryOf nfc) ∧
    (parse_decklist nfc doc).2 =
      pre.filterMap (logOf nfc) ++
        logMsg (normalizeLine rawl) :: post.filterMap (logOf nfc) := by
  have hq : matchQtyName (extractSuffix (normalizeLine rawl)).1 = none := by
    cases hqq : matchQtyName (extractSuffix (normalizeLine rawl)).1 with
    | none => rfl
    | some pair =>
      rcases pair with ⟨ds, g2⟩
      exact absurd (qtyDecomp_of_some hqq) hnd
  have hp : processLine nfc rawl = LineResult.unparsable (normalizeLine rawl) := by
    unfold processLine
    dsimp only []
    rw [if_neg (by
      intro hor
      rcases Bool.or_eq_true_iff.mp hor with h | h
      · exact hne (List.isEmpty_iff.mp h)
      · exact hnc (of_decide_eq_true h))]
    rcases hex : extractSuffix (normalizeLine rawl) with ⟨np, sc, cn⟩
    rw [hex] at hq
    dsimp only [] at hq
    dsimp only []
    rw [hq]
  have he : entryOf nfc rawl = none := by
    unfold entryOf
    rw [hp]
  have hl : logOf nfc rawl = some (logMsg (normalizeLine rawl)) := by
    unfold logOf
    rw [hp]
  refine ⟨hp, ?_, ?_⟩
  · rw [parse_decklist_eq_filterMap, hdoc]
    simp only [List.filterMap_append, List.filterMap_cons, he, hl]
  · rw [parse_decklist_eq_filterMap, hdoc]
    simp only [List.filterMap_append, List.filterMap_cons, he, hl]

/-- Witness for C9: the strictly-unsupported line `"1x Sol Ring"` in a
two-line document is logged and dropped while `"2 Swamp"` still parses. -/
theorem c9_witness :
    processLine id (String.toList "1x Sol Ring") =
      LineResult.unparsable (normalizeLine (String.toList "1x Sol Ring")) ∧
    (parse_decklist id (String.toList "2 Swamp\n1x Sol Ring")).1 =
      [String.toList "2 Swamp"].filterMap (entryOf id) ++
        ([] : List (List Char)).filterMap (entryOf id) ∧
    (parse_decklist id (String.toList "2 Swamp\n1x Sol Ring")).2 =
      [String.toList "2 Swamp"].filterMap (logOf id) ++
        logMsg (normalizeLine (String.toList "1x Sol Ring")) ::
          ([] : List (List Char)).filterMap (logOf id) :=
  c9_unparsable_line_logged id (String.toList "2 Swamp\n1x Sol Ring")
    (String.toList "1x Sol Ring") [String.toList "2 Swamp"] []
    (by decide) (by decide)
    (not_qtyDecomp_of_none (by decide) (by decide))
    (by decide)

end Bling
